import Mathlib

/-!
# Verification of the cli argument-resolution and command-dispatch engine

Shallow embedding of the core of the `cli` package: the token-reordering pass
of `Command.Run`, the command-tree dispatch decision (`Command.Run` /
`Command.startApp`), the boolean-flag precedence pipeline (`BoolFlag.Apply`,
`boolValue.Set`, `Context.Bool`, `lookupBool`), and the map-backed input
source with nested dotted-path lookup (`mapInputSource`, `nestedVal`).

Go machine integers carry no arithmetic in this core, so `int` / `int64` are
embedded as `Int`; `float64` leaf values are only moved around (never
computed with), so they are embedded by their 64-bit pattern as a `Nat`.
Fallible Go functions returning `(T, error)` are embedded as `Except`.
-/

/-! ## Token reorderer (`Command.Run`, the `!c.SkipFlagParsing` loop)

The Go loop keeps a slice `flagArgs`, an insertion point `flagIdx`, and a
boolean `boolF`.  Each flag-like token (prefix `-`) is inserted at `flagIdx`
(via `append` + `copy` + assignment, i.e. an insertion that shifts the tail
right by one); a non-flag token is inserted at `flagIdx` when the previous
token was a registered value-taking flag (`boolF == false`), otherwise it is
appended at the end.  `set.Lookup` is embedded as an arbitrary function
`lookup : String → Option Bool`, where `none` means the name resolves to no
registered flag and `some b` means it resolves to a flag whose value behaves
as a boolean flag iff `b` (`ok && fv.IsBoolFlag()` in the source). -/

/-- Insertion of `v` at index `i`, the `append`/`copy`/assign idiom of the
source (`flagArgs = append(flagArgs, ""); copy(flagArgs[flagIdx+1:],
flagArgs[flagIdx:]); flagArgs[flagIdx] = val`). -/
def insertAt (l : List String) (i : Nat) (v : String) : List String :=
  l.take i ++ v :: l.drop i

/-- The mutable loop state of the reordering pass in `Command.Run`. -/
structure ReorderState where
  flagArgs : List String
  flagIdx : Nat
  boolF : Bool
deriving Repr, DecidableEq

/-- `strings.HasPrefix` (byte-level prefix; on valid UTF-8 this coincides
with character-level prefix, used here so the kernel can evaluate it). -/
def goHasPrefix (s pre : String) : Bool :=
  pre.data.isPrefixOf s.data

/-- Go slicing `s[n:]` for an ASCII prefix of `n` bytes (character drop). -/
def goDrop (s : String) (n : Nat) : String :=
  ⟨s.data.drop n⟩

/-- Go `len(s)`; character count, which decides `len(val) > 1` identically
whenever it is conjoined with a `--` prefix test as in the source. -/
def goLength (s : String) : Nat :=
  s.data.length

/-- The flag name looked up for a flag-like token: `val[2:]` when
`len(val) > 1 && strings.HasPrefix(val, "--")`, else `val[1:]`. -/
def flagName (val : String) : String :=
  if goLength val > 1 && goHasPrefix val "--" then goDrop val 2 else goDrop val 1

/-- The value of `boolF` after the flag-like branch of the loop body:
`true` when `set.Lookup` returns `nil` (the `continue` path) or the flag's
value is a boolean flag, `false` when it resolves to a value-taking flag. -/
def tokBoolF (lookup : String → Option Bool) (val : String) : Bool :=
  match lookup (flagName val) with
  | none => true
  | some isBool => isBool

/-- One iteration of the reordering loop in `Command.Run` on token `val`. -/
def reorderStep (lookup : String → Option Bool) (s : ReorderState) (val : String) :
    ReorderState :=
  if goHasPrefix val "-" then
    { flagArgs := insertAt s.flagArgs s.flagIdx val
      flagIdx := s.flagIdx + 1
      boolF := tokBoolF lookup val }
  else if s.boolF = false then
    { flagArgs := insertAt s.flagArgs s.flagIdx val
      flagIdx := s.flagIdx + 1
      boolF := true }
  else
    { flagArgs := s.flagArgs ++ [val], flagIdx := s.flagIdx, boolF := true }

/-- The whole reordering loop, started from `flagArgs = []`, `flagIdx = 0`,
`boolF = true`, run over the tokens `ctx.Args()[1:]`. -/
def reorderRun (lookup : String → Option Bool) (args : List String) : ReorderState :=
  args.foldl (reorderStep lookup) ⟨[], 0, true⟩

/-- The reordered token vector handed to `set.Parse`. -/
def reorderArgs (lookup : String → Option Bool) (args : List String) : List String :=
  (reorderRun lookup args).flagArgs

/-! ### Invariants of the reorder state -/

/-- The value of `boolF` after processing a token list inside the flag
region: a flag-like token leaves `tokBoolF`, a relocated value leaves
`true`. -/
def afterBoolF (lookup : String → Option Bool) : Bool → List String → Bool
  | b, [] => b
  | _, v :: rest =>
      afterBoolF lookup (if goHasPrefix v "-" then tokBoolF lookup v else true) rest

/-- A token list is a well-formed flag region for incoming `boolF = b`:
every non-flag token in it sits immediately after a registered value-taking
flag token (so `b` must be `false` when the list starts with a non-flag
token). -/
def chainOKb (lookup : String → Option Bool) : Bool → List String → Bool
  | _, [] => true
  | b, v :: rest =>
      if goHasPrefix v "-" then chainOKb lookup (tokBoolF lookup v) rest
      else !b && chainOKb lookup true rest

/-- Invariant maintained by every iteration of the reordering loop:
the insertion point is inside the list, the prefix before it is a
well-formed flag region, the suffix after it holds only non-flag tokens,
and `boolF` is determined by the flag region. -/
def stateOK (lookup : String → Option Bool) (s : ReorderState) : Prop :=
  s.flagIdx ≤ s.flagArgs.length ∧
  chainOKb lookup true (s.flagArgs.take s.flagIdx) = true ∧
  (∀ v ∈ s.flagArgs.drop s.flagIdx, goHasPrefix v "-" = false) ∧
  s.boolF = afterBoolF lookup true (s.flagArgs.take s.flagIdx)

theorem insertAt_length_self (l : List String) (v : String) :
    insertAt l l.length v = l ++ [v] := by
  simp [insertAt]

theorem insertAt_length (l : List String) (i : Nat) (v : String) (h : i ≤ l.length) :
    (insertAt l i v).length = l.length + 1 := by
  simp [insertAt]
  omega

theorem insertAt_take (l : List String) (i : Nat) (v : String) (h : i ≤ l.length) :
    (insertAt l i v).take (i + 1) = l.take i ++ [v] := by
  have hlen : (l.take i).length = i := by
    simp [List.length_take]; omega
  simp [insertAt, List.take_append_eq_append_take, hlen]

theorem insertAt_drop (l : List String) (i : Nat) (v : String) (h : i ≤ l.length) :
    (insertAt l i v).drop (i + 1) = l.drop i := by
  have hlen : (l.take i).length = i := by
    simp [List.length_take]; omega
  simp [insertAt, List.drop_append_eq_append_drop, hlen]

theorem insertAt_take_of_le (l : List String) (i k : Nat) (v : String)
    (hk : k ≤ i) (hi : i ≤ l.length) :
    (insertAt l i v).take k = l.take k := by
  have hlen : (l.take i).length = i := by
    simp [List.length_take]; omega
  rw [insertAt, List.take_append_eq_append_take, hlen]
  have h0 : k - i = 0 := by omega
  rw [h0]
  simp [List.take_take, Nat.min_eq_left hk]

theorem afterBoolF_append (lookup : String → Option Bool) (F : List String)
    (v : String) :
    ∀ b, afterBoolF lookup b (F ++ [v]) =
      if goHasPrefix v "-" then tokBoolF lookup v else true := by
  induction F with
  | nil => intro b; simp [afterBoolF]
  | cons w rest ih => intro b; simp only [List.cons_append, afterBoolF]; exact ih _

theorem chainOKb_append_flag (lookup : String → Option Bool) (F : List String)
    (v : String) (hv : goHasPrefix v "-" = true) :
    ∀ b, chainOKb lookup b F = true → chainOKb lookup b (F ++ [v]) = true := by
  induction F with
  | nil => intro b _; simp [chainOKb, hv]
  | cons w rest ih =>
      intro b h
      simp only [chainOKb, List.cons_append] at h ⊢
      by_cases hw : goHasPrefix w "-" = true
      · simp only [hw, if_true] at h ⊢
        exact ih _ h
      · simp only [Bool.not_eq_true] at hw
        simp only [hw, Bool.false_eq_true, if_false, Bool.and_eq_true] at h ⊢
        exact ⟨h.1, ih _ h.2⟩

theorem chainOKb_append_nonflag (lookup : String → Option Bool) (F : List String)
    (v : String) (hv : goHasPrefix v "-" = false) :
    ∀ b, chainOKb lookup b F = true → afterBoolF lookup b F = false →
      chainOKb lookup b (F ++ [v]) = true := by
  induction F with
  | nil =>
      intro b _ hb
      simp only [afterBoolF] at hb
      simp [chainOKb, hv, hb]
  | cons w rest ih =>
      intro b h hb
      simp only [chainOKb, List.cons_append] at h ⊢
      simp only [afterBoolF] at hb
      by_cases hw : goHasPrefix w "-" = true
      · simp only [hw, if_true] at h hb ⊢
        exact ih _ h hb
      · simp only [Bool.not_eq_true] at hw
        simp only [hw, Bool.false_eq_true, if_false, Bool.and_eq_true] at h hb ⊢
        exact ⟨h.1, ih _ h.2 hb⟩

/-- Each iteration of the reordering loop preserves the state invariant. -/
theorem stateOK_step (lookup : String → Option Bool) (s : ReorderState) (v : String)
    (h : stateOK lookup s) : stateOK lookup (reorderStep lookup s v) := by
  obtain ⟨h1, h2, h3, h4⟩ := h
  by_cases hv : goHasPrefix v "-" = true
  · refine ⟨?_, ?_, ?_, ?_⟩ <;>
      simp only [reorderStep, hv, if_true,
        insertAt_length _ _ _ h1, insertAt_take _ _ _ h1, insertAt_drop _ _ _ h1]
    · omega
    · exact chainOKb_append_flag lookup _ v hv true h2
    · exact h3
    · rw [afterBoolF_append]; simp [hv]
  · simp only [Bool.not_eq_true] at hv
    by_cases hb : s.boolF = false
    · have hafter : afterBoolF lookup true (s.flagArgs.take s.flagIdx) = false := by
        rw [← h4, hb]
      refine ⟨?_, ?_, ?_, ?_⟩ <;>
        simp only [reorderStep, hv, Bool.false_eq_true, if_false, hb, if_true,
          insertAt_length _ _ _ h1, insertAt_take _ _ _ h1, insertAt_drop _ _ _ h1]
      · omega
      · exact chainOKb_append_nonflag lookup _ v hv true h2 hafter
      · exact h3
      · rw [afterBoolF_append, hv]; simp
    · rw [Bool.not_eq_false] at hb
      refine ⟨?_, ?_, ?_, ?_⟩ <;>
        simp only [reorderStep, hv, hb, Bool.false_eq_true, Bool.true_eq_false,
          if_false, List.length_append, List.take_append_of_le_length h1,
          List.drop_append_of_le_length h1]
      · omega
      · exact h2
      · intro w hw
        rcases List.mem_append.1 hw with hw | hw
        · exact h3 w hw
        · simp only [List.mem_singleton] at hw; subst hw; exact hv
      · exact Eq.trans hb.symm h4

theorem stateOK_foldl (lookup : String → Option Bool) (args : List String) :
    ∀ s, stateOK lookup s →
      stateOK lookup (List.foldl (reorderStep lookup) s args) := by
  induction args with
  | nil => intro s h; exact h
  | cons v rest ih =>
      intro s h
      exact ih _ (stateOK_step lookup s v h)

theorem stateOK_run (lookup : String → Option Bool) (args : List String) :
    stateOK lookup (reorderRun lookup args) := by
  refine stateOK_foldl lookup args _ ⟨?_, ?_, ?_, ?_⟩ <;> simp [chainOKb, afterBoolF]

/-- Replaying a well-formed flag region from a state whose insertion point is
at the very end appends it verbatim. -/
theorem foldl_chain (lookup : String → Option Bool) (F : List String) :
    ∀ (A : List String) (b : Bool), chainOKb lookup b F = true →
      List.foldl (reorderStep lookup) ⟨A, A.length, b⟩ F =
        ⟨A ++ F, A.length + F.length, afterBoolF lookup b F⟩ := by
  induction F with
  | nil => intro A b _; simp [afterBoolF]
  | cons v rest ih =>
      intro A b h
      simp only [chainOKb] at h
      by_cases hv : goHasPrefix v "-" = true
      · simp only [hv, if_true] at h
        have hstep : reorderStep lookup ⟨A, A.length, b⟩ v =
            ⟨A ++ [v], (A ++ [v]).length, tokBoolF lookup v⟩ := by
          simp [reorderStep, hv, insertAt_length_self]
        rw [List.foldl_cons, hstep, ih (A ++ [v]) _ h]
        simp only [afterBoolF, hv, if_true, ReorderState.mk.injEq]
        refine ⟨by simp, by simp; omega, trivial⟩
      · simp only [Bool.not_eq_true] at hv
        simp only [hv, Bool.false_eq_true, if_false, Bool.and_eq_true,
          Bool.not_eq_true'] at h
        obtain ⟨hb, hrest⟩ := h
        have hstep : reorderStep lookup ⟨A, A.length, b⟩ v =
            ⟨A ++ [v], (A ++ [v]).length, true⟩ := by
          simp [reorderStep, hv, hb, insertAt_length_self]
        rw [List.foldl_cons, hstep, ih (A ++ [v]) _ hrest]
        simp only [afterBoolF, hv, Bool.false_eq_true, if_false,
          ReorderState.mk.injEq]
        refine ⟨by simp, by simp; omega, trivial⟩

/-- Replaying a run of non-flag tokens appends them verbatim, provided the
insertion point sits at the end whenever a relocation is still pending. -/
theorem foldl_pos (lookup : String → Option Bool) (P : List String) :
    ∀ (A : List String) (i : Nat) (b : Bool), i ≤ A.length →
      (∀ p ∈ P, goHasPrefix p "-" = false) →
      (b = true ∨ i = A.length) →
      (List.foldl (reorderStep lookup) ⟨A, i, b⟩ P).flagArgs = A ++ P := by
  induction P with
  | nil => intro A i b _ _ _; simp
  | cons p rest ih =>
      intro A i b hi hP hb
      have hp : goHasPrefix p "-" = false := hP p (List.mem_cons_self _ _)
      have hrest : ∀ q ∈ rest, goHasPrefix q "-" = false :=
        fun q hq => hP q (List.mem_cons_of_mem _ hq)
      cases b with
      | true =>
          have hstep : reorderStep lookup ⟨A, i, true⟩ p =
              ⟨A ++ [p], i, true⟩ := by
            simp [reorderStep, hp]
          rw [List.foldl_cons, hstep, ih (A ++ [p]) i true (by simp; omega) hrest
            (Or.inl rfl)]
          simp
      | false =>
          have hiA : i = A.length := by
            rcases hb with hb | hb
            · exact absurd hb (by simp)
            · exact hb
          subst hiA
          have hstep : reorderStep lookup ⟨A, A.length, false⟩ p =
              ⟨A ++ [p], A.length + 1, true⟩ := by
            simp [reorderStep, hp, insertAt_length_self]
          rw [List.foldl_cons, hstep,
            ih (A ++ [p]) (A.length + 1) true (by simp) hrest (Or.inl rfl)]
          simp

/-- C1: Reorder idempotence.  For every flag-set lookup function and every
argument vector, applying the token-reordering pass of `Command.Run` to its
own output returns that output unchanged (`reorder(reorder(v)) = reorder(v)`);
in particular tokens already paired by a first pass are not re-paired or
displaced by a second pass. -/
theorem reorder_idempotent (lookup : String → Option Bool) (args : List String) :
    reorderArgs lookup (reorderArgs lookup args) = reorderArgs lookup args := by
  obtain ⟨h1, h2, h3, h4⟩ := stateOK_run lookup args
  set s := reorderRun lookup args with hs
  have hsplit : s.flagArgs.take s.flagIdx ++ s.flagArgs.drop s.flagIdx =
      s.flagArgs := List.take_append_drop _ _
  have hF : List.foldl (reorderStep lookup) ⟨[], 0, true⟩
        (s.flagArgs.take s.flagIdx) =
      ⟨s.flagArgs.take s.flagIdx, (s.flagArgs.take s.flagIdx).length,
        afterBoolF lookup true (s.flagArgs.take s.flagIdx)⟩ := by
    have h := foldl_chain lookup (s.flagArgs.take s.flagIdx) [] true h2
    simpa using h
  have hP : (List.foldl (reorderStep lookup)
        ⟨s.flagArgs.take s.flagIdx, (s.flagArgs.take s.flagIdx).length,
          afterBoolF lookup true (s.flagArgs.take s.flagIdx)⟩
        (s.flagArgs.drop s.flagIdx)).flagArgs =
      s.flagArgs.take s.flagIdx ++ s.flagArgs.drop s.flagIdx :=
    foldl_pos lookup _ _ _ _ (le_refl _) h3 (Or.inr rfl)
  calc reorderArgs lookup (reorderArgs lookup args)
      = (List.foldl (reorderStep lookup) ⟨[], 0, true⟩
          (s.flagArgs.take s.flagIdx ++ s.flagArgs.drop s.flagIdx)).flagArgs := by
        rw [hsplit]; rfl
    _ = s.flagArgs.take s.flagIdx ++ s.flagArgs.drop s.flagIdx := by
        rw [List.foldl_append, hF, hP]
    _ = s.flagArgs := hsplit

/-! ### Multiset preservation and pairing -/

theorem insertAt_perm (l : List String) (i : Nat) (v : String) :
    (insertAt l i v).Perm (v :: l) := by
  have h : (l.take i ++ v :: l.drop i).Perm (v :: (l.take i ++ l.drop i)) :=
    List.perm_middle
  rw [List.take_append_drop] at h
  exact h

theorem reorderStep_perm (lookup : String → Option Bool) (s : ReorderState)
    (v : String) :
    ((reorderStep lookup s v).flagArgs).Perm (v :: s.flagArgs) := by
  by_cases hv : goHasPrefix v "-" = true
  · simp only [reorderStep, hv, if_true]
    exact insertAt_perm _ _ _
  · simp only [Bool.not_eq_true] at hv
    by_cases hb : s.boolF = false
    · simp only [reorderStep, hv, Bool.false_eq_true, if_false, hb, if_true]
      exact insertAt_perm _ _ _
    · simp only [reorderStep, hv, Bool.false_eq_true, if_false, hb]
      exact List.perm_append_singleton _ _

theorem foldl_perm (lookup : String → Option Bool) (args : List String) :
    ∀ s : ReorderState,
      ((List.foldl (reorderStep lookup) s args).flagArgs).Perm
        (s.flagArgs ++ args) := by
  induction args with
  | nil => intro s; simp
  | cons v rest ih =>
      intro s
      have h1 := ih (reorderStep lookup s v)
      have h2 : ((reorderStep lookup s v).flagArgs ++ rest).Perm
          (s.flagArgs ++ v :: rest) := by
        have h3 := (reorderStep_perm lookup s v).append_right rest
        exact h3.trans List.perm_middle.symm
      exact h1.trans h2

/-- The reordered vector is a permutation of the input vector: no token is
dropped or duplicated by the reordering pass. -/
theorem reorder_perm (lookup : String → Option Bool) (args : List String) :
    (reorderArgs lookup args).Perm args := by
  simpa using foldl_perm lookup args ⟨[], 0, true⟩

/-- Tokens before the insertion point are never displaced by later
iterations of the loop. -/
theorem foldl_prefix (lookup : String → Option Bool) (zs : List String) :
    ∀ (s : ReorderState) (k : Nat), k ≤ s.flagIdx →
      s.flagIdx ≤ s.flagArgs.length →
      (List.foldl (reorderStep lookup) s zs).flagArgs.take k =
        s.flagArgs.take k := by
  induction zs with
  | nil => intro s k _ _; rfl
  | cons v rest ih =>
      intro s k hk hi
      have hki : k ≤ s.flagArgs.length := le_trans hk hi
      rw [List.foldl_cons]
      by_cases hv : goHasPrefix v "-" = true
      · have hstep : reorderStep lookup s v =
            ⟨insertAt s.flagArgs s.flagIdx v, s.flagIdx + 1, tokBoolF lookup v⟩ := by
          simp [reorderStep, hv]
        rw [hstep, ih ⟨insertAt s.flagArgs s.flagIdx v, s.flagIdx + 1,
            tokBoolF lookup v⟩ k
          (by show k ≤ s.flagIdx + 1; omega)
          (by show s.flagIdx + 1 ≤ (insertAt s.flagArgs s.flagIdx v).length
              rw [insertAt_length _ _ _ hi]; omega)]
        exact insertAt_take_of_le _ _ _ _ hk hi
      · simp only [Bool.not_eq_true] at hv
        by_cases hb : s.boolF = false
        · have hstep : reorderStep lookup s v =
              ⟨insertAt s.flagArgs s.flagIdx v, s.flagIdx + 1, true⟩ := by
            simp [reorderStep, hv, hb]
          rw [hstep, ih ⟨insertAt s.flagArgs s.flagIdx v, s.flagIdx + 1, true⟩ k
            (by show k ≤ s.flagIdx + 1; omega)
            (by show s.flagIdx + 1 ≤ (insertAt s.flagArgs s.flagIdx v).length
                rw [insertAt_length _ _ _ hi]; omega)]
          exact insertAt_take_of_le _ _ _ _ hk hi
        · have hstep : reorderStep lookup s v =
              ⟨s.flagArgs ++ [v], s.flagIdx, true⟩ := by
            rw [Bool.not_eq_false] at hb
            simp [reorderStep, hv, hb]
          rw [hstep, ih ⟨s.flagArgs ++ [v], s.flagIdx, true⟩ k
            (by show k ≤ s.flagIdx; omega)
            (by show s.flagIdx ≤ (s.flagArgs ++ [v]).length; simp; omega)]
          exact List.take_append_of_le_length hki

/-- Tokens inserted consecutively at the insertion point stay adjacent in
the final output: if the state’s flag region ends with `f, p` at positions
`i`, `i+1`, later iterations never separate them. -/
theorem reorder_adjacent_after_insert (lookup : String → Option Bool)
    (ys : List String) (s₂ : ReorderState) (A : List String) (i : Nat)
    (f p : String)
    (hfa : s₂.flagArgs = insertAt (insertAt A i f) (i + 1) p)
    (hfi : s₂.flagIdx = i + 2) (hi : i ≤ A.length) :
    ∃ as bs, (List.foldl (reorderStep lookup) s₂ ys).flagArgs =
      as ++ f :: p :: bs := by
  have hlen1 : i + 1 ≤ (insertAt A i f).length := by
    rw [insertAt_length _ _ _ hi]; omega
  have hlen2 : i + 2 ≤ (insertAt (insertAt A i f) (i + 1) p).length := by
    rw [insertAt_length _ _ _ hlen1, insertAt_length _ _ _ hi]; omega
  have hpre := foldl_prefix lookup ys s₂ (i + 2)
    (by rw [hfi]) (by rw [hfi, hfa]; exact hlen2)
  have htake : s₂.flagArgs.take (i + 2) = A.take i ++ [f, p] := by
    rw [hfa, show i + 2 = (i + 1) + 1 from rfl, insertAt_take _ _ _ hlen1,
      insertAt_take _ _ _ hi]
    simp
  refine ⟨A.take i,
    (List.foldl (reorderStep lookup) s₂ ys).flagArgs.drop (i + 2), ?_⟩
  conv_lhs => rw [← List.take_append_drop (i + 2)
    (List.foldl (reorderStep lookup) s₂ ys).flagArgs]
  rw [hpre, htake]
  simp

/-- C2 (amended): for every argument vector the reordered output is a
permutation of the input — no token is dropped or duplicated.  A registered
value-taking flag token is immediately followed in the output by whatever
token immediately followed it in the input; in particular the nearest
following non-flag token is relocated to sit directly after it.  When no
token follows it at all, it is merely inserted at the end of the flag
region with no relocation performed — which is not the same as being left
unpaired, because the flag region precedes the remaining positional
tokens. -/
theorem reorder_pairs_value_flag (lookup : String → Option Bool)
    (xs ys : List String) (f p : String)
    (hf : goHasPrefix f "-" = true)
    (hlook : lookup (flagName f) = some false) :
    (∀ v : List String, (reorderArgs lookup v).Perm v) ∧
    (∃ as bs, reorderArgs lookup (xs ++ f :: p :: ys) = as ++ f :: p :: bs) ∧
    reorderArgs lookup (xs ++ [f]) =
      insertAt (reorderRun lookup xs).flagArgs (reorderRun lookup xs).flagIdx
        f := by
  obtain ⟨h1, _, _, _⟩ := stateOK_run lookup xs
  have htok : tokBoolF lookup f = false := by simp [tokBoolF, hlook]
  have e1 : reorderStep lookup (reorderRun lookup xs) f =
      ⟨insertAt (reorderRun lookup xs).flagArgs (reorderRun lookup xs).flagIdx f,
        (reorderRun lookup xs).flagIdx + 1, false⟩ := by
    simp [reorderStep, hf, htok]
  refine ⟨fun v => reorder_perm lookup v, ?_, ?_⟩
  · have hfa : (reorderStep lookup
        ⟨insertAt (reorderRun lookup xs).flagArgs (reorderRun lookup xs).flagIdx f,
          (reorderRun lookup xs).flagIdx + 1, false⟩ p).flagArgs =
        insertAt
          (insertAt (reorderRun lookup xs).flagArgs
            (reorderRun lookup xs).flagIdx f)
          ((reorderRun lookup xs).flagIdx + 1) p := by
      by_cases hp : goHasPrefix p "-" = true <;> simp [reorderStep, hp]
    have hfi : (reorderStep lookup
        ⟨insertAt (reorderRun lookup xs).flagArgs (reorderRun lookup xs).flagIdx f,
          (reorderRun lookup xs).flagIdx + 1, false⟩ p).flagIdx =
        (reorderRun lookup xs).flagIdx + 2 := by
      by_cases hp : goHasPrefix p "-" = true <;> simp [reorderStep, hp]
    have expand : reorderArgs lookup (xs ++ f :: p :: ys) =
        (List.foldl (reorderStep lookup)
          (reorderStep lookup
            ⟨insertAt (reorderRun lookup xs).flagArgs
                (reorderRun lookup xs).flagIdx f,
              (reorderRun lookup xs).flagIdx + 1, false⟩ p) ys).flagArgs := by
      show (List.foldl (reorderStep lookup) ⟨[], 0, true⟩
          (xs ++ f :: p :: ys)).flagArgs = _
      rw [List.foldl_append,
        show List.foldl (reorderStep lookup) ⟨[], 0, true⟩ xs =
          reorderRun lookup xs from rfl,
        List.foldl_cons, e1, List.foldl_cons]
    rw [expand]
    exact reorder_adjacent_after_insert lookup ys _
      (reorderRun lookup xs).flagArgs (reorderRun lookup xs).flagIdx f p
      hfa hfi h1
  · show (List.foldl (reorderStep lookup) ⟨[], 0, true⟩ (xs ++ [f])).flagArgs = _
    rw [List.foldl_append,
      show List.foldl (reorderStep lookup) ⟨[], 0, true⟩ xs =
        reorderRun lookup xs from rfl,
      List.foldl_cons, e1]
    rfl

/-- Concrete registered-flag lookup used by the witnesses: `x` is a
value-taking flag, `b` is a boolean flag, everything else is unknown. -/
def lookupXB : String → Option Bool := fun n =>
  if n = "x" then some false else if n = "b" then some true else none

/-- C2 counterexample: `--x` resolves to a registered value-taking flag and
is followed, before reordering, by zero non-flag tokens, so the claim says
it is left unpaired.  But the pass moves `--x` into the flag region, where
it ends up immediately before the earlier positional token `a` — a
non-flag token that never followed it — which the underlying parser then
consumes as the flag’s value.  The flag is not left unpaired. -/
theorem trailing_value_flag_not_unpaired :
    reorderArgs lookupXB ["a", "--x"] = ["--x", "a"] ∧
    goHasPrefix "a" "-" = false :=
  ⟨rfl, by decide⟩

theorem reorder_pairs_value_flag_witness :
    (goHasPrefix "--x" "-" = true) ∧ (lookupXB (flagName "--x") = some false) ∧
    ((∀ v : List String, (reorderArgs lookupXB v).Perm v) ∧
      (∃ as bs, reorderArgs lookupXB (["a"] ++ "--x" :: "v" :: ["w"]) =
        as ++ "--x" :: "v" :: bs) ∧
      reorderArgs lookupXB (["a"] ++ ["--x"]) =
        insertAt (reorderRun lookupXB ["a"]).flagArgs
          (reorderRun lookupXB ["a"]).flagIdx "--x") :=
  ⟨by decide, by decide,
    reorder_pairs_value_flag lookupXB ["a"] ["w"] "--x" "v"
      (by decide) (by decide)⟩

/-- Each iteration moves the insertion point right or leaves it where it
is. -/
theorem reorderStep_flagIdx_le (lookup : String → Option Bool)
    (s : ReorderState) (v : String) :
    s.flagIdx ≤ (reorderStep lookup s v).flagIdx := by
  by_cases hv : goHasPrefix v "-" = true
  · have hstep : reorderStep lookup s v =
        ⟨insertAt s.flagArgs s.flagIdx v, s.flagIdx + 1, tokBoolF lookup v⟩ := by
      simp [reorderStep, hv]
    rw [hstep]
    exact Nat.le_succ _
  · simp only [Bool.not_eq_true] at hv
    by_cases hb : s.boolF = false
    · have hstep : reorderStep lookup s v =
          ⟨insertAt s.flagArgs s.flagIdx v, s.flagIdx + 1, true⟩ := by
        simp [reorderStep, hv, hb]
      rw [hstep]
      exact Nat.le_succ _
    · rw [Bool.not_eq_false] at hb
      have hstep : reorderStep lookup s v =
          ⟨s.flagArgs ++ [v], s.flagIdx, true⟩ := by
        simp [reorderStep, hv, hb]
      rw [hstep]

theorem foldl_flagIdx_mono (lookup : String → Option Bool) (zs : List String) :
    ∀ s : ReorderState,
      s.flagIdx ≤ (List.foldl (reorderStep lookup) s zs).flagIdx := by
  induction zs with
  | nil => intro s; exact le_refl _
  | cons v rest ih =>
      intro s
      rw [List.foldl_cons]
      exact le_trans (reorderStep_flagIdx_le lookup s v)
        (ih (reorderStep lookup s v))

/-- The positional tail of the state only ever grows at its end: each
iteration either inserts into the flag region (leaving the tail as is) or
appends one more non-flag token to it. -/
theorem foldl_tail (lookup : String → Option Bool) (zs : List String) :
    ∀ s : ReorderState, s.flagIdx ≤ s.flagArgs.length →
      ∃ qs : List String, (∀ q ∈ qs, goHasPrefix q "-" = false) ∧
        (List.foldl (reorderStep lookup) s zs).flagArgs.drop
            (List.foldl (reorderStep lookup) s zs).flagIdx =
          s.flagArgs.drop s.flagIdx ++ qs := by
  induction zs with
  | nil =>
      intro s _
      refine ⟨[], ?_, by simp⟩
      intro q hq
      cases hq
  | cons v rest ih =>
      intro s hi
      rw [List.foldl_cons]
      by_cases hv : goHasPrefix v "-" = true
      · have hstep : reorderStep lookup s v =
            ⟨insertAt s.flagArgs s.flagIdx v, s.flagIdx + 1, tokBoolF lookup v⟩ := by
          simp [reorderStep, hv]
        rw [hstep]
        obtain ⟨qs, hqs, hdrop⟩ := ih
          ⟨insertAt s.flagArgs s.flagIdx v, s.flagIdx + 1, tokBoolF lookup v⟩
          (by show s.flagIdx + 1 ≤ (insertAt s.flagArgs s.flagIdx v).length
              rw [insertAt_length _ _ _ hi]; omega)
        refine ⟨qs, hqs, ?_⟩
        rw [hdrop]
        show (insertAt s.flagArgs s.flagIdx v).drop (s.flagIdx + 1) ++ qs = _
        rw [insertAt_drop _ _ _ hi]
      · simp only [Bool.not_eq_true] at hv
        by_cases hb : s.boolF = false
        · have hstep : reorderStep lookup s v =
              ⟨insertAt s.flagArgs s.flagIdx v, s.flagIdx + 1, true⟩ := by
            simp [reorderStep, hv, hb]
          rw [hstep]
          obtain ⟨qs, hqs, hdrop⟩ := ih
            ⟨insertAt s.flagArgs s.flagIdx v, s.flagIdx + 1, true⟩
            (by show s.flagIdx + 1 ≤ (insertAt s.flagArgs s.flagIdx v).length
                rw [insertAt_length _ _ _ hi]; omega)
          refine ⟨qs, hqs, ?_⟩
          rw [hdrop]
          show (insertAt s.flagArgs s.flagIdx v).drop (s.flagIdx + 1) ++ qs = _
          rw [insertAt_drop _ _ _ hi]
        · rw [Bool.not_eq_false] at hb
          have hstep : reorderStep lookup s v =
              ⟨s.flagArgs ++ [v], s.flagIdx, true⟩ := by
            simp [reorderStep, hv, hb]
          rw [hstep]
          obtain ⟨qs, hqs, hdrop⟩ := ih ⟨s.flagArgs ++ [v], s.flagIdx, true⟩
            (by show s.flagIdx ≤ (s.flagArgs ++ [v]).length
                simp
                omega)
          refine ⟨v :: qs, ?_, ?_⟩
          · intro q hq
            rcases List.mem_cons.1 hq with hq | hq
            · subst hq; exact hv
            · exact hqs q hq
          · rw [hdrop]
            show (s.flagArgs ++ [v]).drop s.flagIdx ++ qs =
              s.flagArgs.drop s.flagIdx ++ v :: qs
            rw [List.drop_append_of_le_length hi]
            simp

/-- C6: wherever in the vector a flag-like token `f` that resolves to a
boolean flag, or to no registered flag at all, is immediately followed by a
non-flag token `p`, the pass performs no relocation for `p`: in the final
output `f` sits inside the flag region right after the flag region built
from the prefix (the output up to the insertion point starts with that
region followed by `f`), while `p` stays in the positional region — the
output’s tail is exactly the earlier positional region, then `p`, then the
later positionals, in their original order.  An unknown flag thus passes
through untouched and its follower remains a positional for the underlying
parser to judge. -/
theorem reorder_bool_or_unknown_no_reloc (lookup : String → Option Bool)
    (xs ys : List String) (f p : String)
    (hf : goHasPrefix f "-" = true)
    (hlook : lookup (flagName f) = none ∨ lookup (flagName f) = some true)
    (hp : goHasPrefix p "-" = false) :
    ∃ qs : List String,
      (∀ q ∈ qs, goHasPrefix q "-" = false) ∧
      (reorderRun lookup (xs ++ f :: p :: ys)).flagArgs.drop
          (reorderRun lookup (xs ++ f :: p :: ys)).flagIdx =
        (reorderRun lookup xs).flagArgs.drop (reorderRun lookup xs).flagIdx
          ++ p :: qs ∧
      (reorderRun lookup (xs ++ f :: p :: ys)).flagArgs.take
          ((reorderRun lookup xs).flagIdx + 1) =
        (reorderRun lookup xs).flagArgs.take (reorderRun lookup xs).flagIdx
          ++ [f] ∧
      (reorderRun lookup xs).flagIdx + 1 ≤
        (reorderRun lookup (xs ++ f :: p :: ys)).flagIdx := by
  obtain ⟨h1, _, _, _⟩ := stateOK_run lookup xs
  have htok : tokBoolF lookup f = true := by
    rcases hlook with h | h <;> simp [tokBoolF, h]
  have e1 : reorderStep lookup (reorderRun lookup xs) f =
      ⟨insertAt (reorderRun lookup xs).flagArgs (reorderRun lookup xs).flagIdx f,
        (reorderRun lookup xs).flagIdx + 1, true⟩ := by
    simp [reorderStep, hf, htok]
  have e2 : reorderStep lookup
      ⟨insertAt (reorderRun lookup xs).flagArgs (reorderRun lookup xs).flagIdx f,
        (reorderRun lookup xs).flagIdx + 1, true⟩ p =
      ⟨insertAt (reorderRun lookup xs).flagArgs (reorderRun lookup xs).flagIdx f
          ++ [p],
        (reorderRun lookup xs).flagIdx + 1, true⟩ := by
    simp [reorderStep, hp]
  have hrun : reorderRun lookup (xs ++ f :: p :: ys) =
      List.foldl (reorderStep lookup)
        ⟨insertAt (reorderRun lookup xs).flagArgs (reorderRun lookup xs).flagIdx f
            ++ [p],
          (reorderRun lookup xs).flagIdx + 1, true⟩ ys := by
    show List.foldl (reorderStep lookup) ⟨[], 0, true⟩ (xs ++ f :: p :: ys) = _
    rw [List.foldl_append,
      show List.foldl (reorderStep lookup) ⟨[], 0, true⟩ xs =
        reorderRun lookup xs from rfl,
      List.foldl_cons, e1, List.foldl_cons, e2]
  have hlen1 : (reorderRun lookup xs).flagIdx + 1 ≤
      (insertAt (reorderRun lookup xs).flagArgs (reorderRun lookup xs).flagIdx
        f).length := by
    rw [insertAt_length _ _ _ h1]; omega
  have hlen2 : (reorderRun lookup xs).flagIdx + 1 ≤
      (insertAt (reorderRun lookup xs).flagArgs (reorderRun lookup xs).flagIdx f
        ++ [p]).length := by
    rw [List.length_append, insertAt_length _ _ _ h1]
    simp only [List.length_singleton]
    omega
  obtain ⟨qs, hqs, hdrop⟩ := foldl_tail lookup ys
    ⟨insertAt (reorderRun lookup xs).flagArgs (reorderRun lookup xs).flagIdx f
        ++ [p],
      (reorderRun lookup xs).flagIdx + 1, true⟩ hlen2
  refine ⟨qs, hqs, ?_, ?_, ?_⟩
  · rw [hrun, hdrop]
    show (insertAt (reorderRun lookup xs).flagArgs (reorderRun lookup xs).flagIdx f
        ++ [p]).drop ((reorderRun lookup xs).flagIdx + 1) ++ qs = _
    rw [List.drop_append_of_le_length hlen1, insertAt_drop _ _ _ h1]
    simp
  · rw [hrun, foldl_prefix lookup ys _ ((reorderRun lookup xs).flagIdx + 1)
      (le_refl _) hlen2]
    show (insertAt (reorderRun lookup xs).flagArgs (reorderRun lookup xs).flagIdx f
        ++ [p]).take ((reorderRun lookup xs).flagIdx + 1) = _
    rw [List.take_append_of_le_length hlen1, insertAt_take _ _ _ h1]
  · rw [hrun]
    exact foldl_flagIdx_mono lookup ys
      ⟨insertAt (reorderRun lookup xs).flagArgs (reorderRun lookup xs).flagIdx f
          ++ [p],
        (reorderRun lookup xs).flagIdx + 1, true⟩

theorem reorder_bool_or_unknown_no_reloc_witness :
    (goHasPrefix "-b" "-" = true) ∧
    (lookupXB (flagName "-b") = none ∨ lookupXB (flagName "-b") = some true) ∧
    (goHasPrefix "v" "-" = false) ∧
    (∃ qs : List String,
      (∀ q ∈ qs, goHasPrefix q "-" = false) ∧
      (reorderRun lookupXB (["a"] ++ "-b" :: "v" :: ["w"])).flagArgs.drop
          (reorderRun lookupXB (["a"] ++ "-b" :: "v" :: ["w"])).flagIdx =
        (reorderRun lookupXB ["a"]).flagArgs.drop
          (reorderRun lookupXB ["a"]).flagIdx ++ "v" :: qs ∧
      (reorderRun lookupXB (["a"] ++ "-b" :: "v" :: ["w"])).flagArgs.take
          ((reorderRun lookupXB ["a"]).flagIdx + 1) =
        (reorderRun lookupXB ["a"]).flagArgs.take
          (reorderRun lookupXB ["a"]).flagIdx ++ ["-b"] ∧
      (reorderRun lookupXB ["a"]).flagIdx + 1 ≤
        (reorderRun lookupXB (["a"] ++ "-b" :: "v" :: ["w"])).flagIdx) :=
  ⟨by decide, Or.inr (by decide), by decide,
    reorder_bool_or_unknown_no_reloc lookupXB ["a"] ["w"] "-b" "v"
      (by decide) (Or.inr (by decide)) (by decide)⟩

/-- Lookup with no registered flags, used by the C9 counterexample. -/
def noLookup : String → Option Bool := fun _ => none

/-- C9 counterexample: the claim says a token exactly `-` is not classified
as flag-like and not moved into the flag region.  On input `["a", "-"]` the
code moves `-` in front of the positional token `a` (because
`strings.HasPrefix("-", "-")` holds), so the output is `["-", "a"]`, not the
untouched `["a", "-"]` the claim implies. -/
theorem dash_token_moved_counterexample :
    reorderArgs noLookup ["a", "-"] = ["-", "a"] ∧
    reorderArgs noLookup ["a", "-"] ≠ ["a", "-"] := by
  constructor
  · rfl
  · intro h
    rw [show reorderArgs noLookup ["a", "-"] = ["-", "a"] from rfl] at h
    injection h with h1 h2
    exact absurd h1 (by decide)

/-- C9 amended: the empty token is treated as a non-flag positional token
(it takes the non-flag branch, i.e. it is relocated after a pending
value-taking flag or appended at the end); the token exactly `-` IS
classified as flag-like and inserted into the flag region, but its stripped
name is the empty string, so as long as no flag is registered under the
empty name it resolves to no flag and never causes relocation of the token
that follows it (`boolF` stays `true`). -/
theorem reorderStep_empty_positional_dash_flaglike (lookup : String → Option Bool)
    (s : ReorderState) (h : lookup "" = none) :
    reorderStep lookup s "" =
      (if s.boolF = false then
        ⟨insertAt s.flagArgs s.flagIdx "", s.flagIdx + 1, true⟩
      else ⟨s.flagArgs ++ [""], s.flagIdx, true⟩) ∧
    reorderStep lookup s "-" =
      ⟨insertAt s.flagArgs s.flagIdx "-", s.flagIdx + 1, true⟩ := by
  constructor
  · have h0 : (goHasPrefix "" "-") = false := by decide
    simp only [reorderStep, h0, Bool.false_eq_true, if_false]
  · have h1 : (goHasPrefix "-" "-") = true := by decide
    have h2 : flagName "-" = "" := by decide
    have h3 : tokBoolF lookup "-" = true := by
      unfold tokBoolF
      rw [h2, h]
    simp only [reorderStep, h1, if_true, h3]

theorem reorderStep_empty_positional_dash_flaglike_witness :
    noLookup "" = none ∧
    (reorderStep noLookup ⟨["q"], 0, true⟩ "" =
        (if (⟨["q"], 0, true⟩ : ReorderState).boolF = false then
          ⟨insertAt ["q"] 0 "", 0 + 1, true⟩
        else ⟨["q"] ++ [""], 0, true⟩) ∧
      reorderStep noLookup ⟨["q"], 0, true⟩ "-" =
        ⟨insertAt ["q"] 0 "-", 0 + 1, true⟩) :=
  ⟨rfl, reorderStep_empty_positional_dash_flaglike noLookup ⟨["q"], 0, true⟩ rfl⟩

/-! ## Command tree / dispatcher (`Command.Run`, `Command.startApp`)

`Command` is embedded with the fields that `Run` and `startApp` read.
Function-typed fields are embedded by their observable content:
`BashComplete` and `Before` by `nil`-ness, `Action` by an optional
identifier, so that `startApp`'s choice between `c.Action` and
`helpSubcommand.Action` stays observable.  `flagSet`, `set.Parse`,
`normalizeFlags`, `NewContext` and `App.RunAsSubcommand` are defined outside
`src/`: the run outcome therefore records which path `Run` takes, carrying
the `App` value built by `startApp` (internal path, lines 146-180) or the
exact token vector handed to `set.Parse` (leaf path); the flag set built by
`flagSet(c.Name, c.Flags)` enters only through the `lookup` parameter. -/

inductive Command where
  | mk (name shortName usage description : String)
      (hasBashComplete : Bool) (hasBefore : Bool) (action : Option Nat)
      (subcommands : List Command) (flags : List String)
      (skipFlagParsing : Bool) (hideHelp : Bool)

def Command.name : Command → String
  | .mk n _ _ _ _ _ _ _ _ _ _ => n

def Command.shortName : Command → String
  | .mk _ sn _ _ _ _ _ _ _ _ _ => sn

def Command.usage : Command → String
  | .mk _ _ u _ _ _ _ _ _ _ _ => u

def Command.description : Command → String
  | .mk _ _ _ d _ _ _ _ _ _ _ => d

def Command.hasBashComplete : Command → Bool
  | .mk _ _ _ _ hbc _ _ _ _ _ _ => hbc

def Command.hasBefore : Command → Bool
  | .mk _ _ _ _ _ hb _ _ _ _ _ => hb

def Command.action : Command → Option Nat
  | .mk _ _ _ _ _ _ a _ _ _ _ => a

def Command.subcommands : Command → List Command
  | .mk _ _ _ _ _ _ _ subs _ _ _ => subs

def Command.flags : Command → List String
  | .mk _ _ _ _ _ _ _ _ fl _ _ => fl

def Command.skipFlagParsing : Command → Bool
  | .mk _ _ _ _ _ _ _ _ _ sk _ => sk

def Command.hideHelp : Command → Bool
  | .mk _ _ _ _ _ _ _ _ _ _ hh => hh

/-- `Command.HasName`: true if `Name` or `ShortName` matches. -/
def Command.HasName (c : Command) (n : String) : Bool :=
  c.name == n || c.shortName == n

/-- The fields of the enclosing `ctx.App` that `Run`/`startApp` read. -/
structure ParentCtx where
  appName : String
  enableBashCompletion : Bool
  hasCommandNotFound : Bool

/-- The action installed on the nested app: the command's own action if it
declares one, `helpSubcommand.Action` otherwise. -/
inductive AppAction where
  | ofCommand (a : Nat)
  | helpSubcommandAction
deriving Repr, DecidableEq

/-- The fields of the nested `App` that `startApp` assigns (lines 146-178). -/
structure App where
  name : String
  usage : String
  hasCommandNotFound : Bool
  commands : List Command
  flags : List String
  hideHelp : Bool
  enableBashCompletion : Bool
  bashCompleteOverridden : Bool
  hasBefore : Bool
  action : AppAction

/-- `Command.startApp`: builds the nested dispatch scope (a fresh `App`)
and hands the remaining arguments to `app.RunAsSubcommand(ctx)`. -/
def Command.startApp (c : Command) (p : ParentCtx) : App :=
  { name := p.appName ++ " " ++ c.name
    usage := if c.description ≠ "" then c.description else c.usage
    hasCommandNotFound := p.hasCommandNotFound
    commands := c.subcommands
    flags := c.flags
    hideHelp := c.hideHelp
    enableBashCompletion := p.enableBashCompletion
    bashCompleteOverridden := c.hasBashComplete
    hasBefore := c.hasBefore
    action := match c.action with
      | some a => .ofCommand a
      | none => .helpSubcommandAction }

/-- What one invocation of `Command.Run` does: either it spawns a nested
dispatch scope (`startApp` → `RunAsSubcommand`), or it runs the leaf path,
handing the recorded token vector to `set.Parse` and then the action. -/
inductive RunOutcome where
  | internalDispatch (app : App)
  | leafParse (flagArgs : List String)

/-- `Command.Run` (lines 41-139): the dispatch decision
`len(c.Subcommands) > 0 || c.Before != nil`, then on the leaf path either
the reordering loop over `ctx.Args()[1:]` (when `SkipFlagParsing` is false)
or the untouched tail `ctx.Args().Tail()`. -/
def Command.run (c : Command) (p : ParentCtx) (lookup : String → Option Bool)
    (args : List String) : RunOutcome :=
  if 0 < c.subcommands.length ∨ c.hasBefore = true then
    .internalDispatch (c.startApp p)
  else
    .leafParse
      (if !c.skipFlagParsing then reorderArgs lookup (args.drop 1)
        else args.drop 1)

/-- C5: every Command with at least one subcommand or a non-nil `Before`
hook is dispatched through `startApp` as an internal node — a nested
dispatch scope is spawned — and never runs the leaf parse-flags-and-execute
path; the decision does not consult the command's `Action` (the theorem
holds for every value of `c.action`). -/
theorem command_internal_dispatch (c : Command) (p : ParentCtx)
    (lookup : String → Option Bool) (args : List String)
    (h : 0 < c.subcommands.length ∨ c.hasBefore = true) :
    c.run p lookup args = .internalDispatch (c.startApp p) := by
  unfold Command.run
  rw [if_pos h]

def pctx0 : ParentCtx := ⟨"app", false, false⟩

def cmdC5 : Command :=
  .mk "sub" "s" "u" "d" false false (some 7)
    [.mk "child" "" "" "" false false none [] [] false false] ["f"] false false

theorem command_internal_dispatch_witness :
    (0 < cmdC5.subcommands.length ∨ cmdC5.hasBefore = true) ∧
    cmdC5.run pctx0 noLookup ["app", "child"] =
      .internalDispatch (cmdC5.startApp pctx0) :=
  ⟨Or.inl (by decide),
    command_internal_dispatch cmdC5 pctx0 noLookup ["app", "child"]
      (Or.inl (by decide))⟩

/-- C8: when `SkipFlagParsing` is true on a leaf node, the reordering pass
is bypassed and the untouched remaining tokens `ctx.Args().Tail()` are what
`Command.Run` hands to `set.Parse` (line 109).  This records the exact
handoff at the claim’s failing inputs: the flag set is still built — with
the env/file `Apply` of every flag — before the skip branch (line 59), and
the underlying Go flag parser still consumes or rejects leading flag-like
tokens of this vector, so the tokens are not all passed through to the
action as positional arguments, despite the field’s own comment ("Treat
all flags as normal arguments if true"). -/
theorem command_skip_flag_parsing (c : Command) (p : ParentCtx)
    (lookup : String → Option Bool) (args : List String)
    (hsub : c.subcommands = []) (hbef : c.hasBefore = false)
    (hskip : c.skipFlagParsing = true) :
    c.run p lookup args = .leafParse (args.drop 1) := by
  unfold Command.run
  rw [if_neg (by simp [hsub, hbef]), hskip]
  simp

def cmdC8 : Command :=
  .mk "pass" "" "" "" false false (some 3) [] [] true false

theorem command_skip_flag_parsing_witness :
    (cmdC8.subcommands = [] ∧ cmdC8.hasBefore = false ∧
      cmdC8.skipFlagParsing = true) ∧
    cmdC8.run pctx0 noLookup ["pass", "-x", "v"] = .leafParse ["-x", "v"] :=
  ⟨⟨rfl, rfl, rfl⟩,
    command_skip_flag_parsing cmdC8 pctx0 noLookup ["pass", "-x", "v"]
      rfl rfl rfl⟩

/-! ## Input Source (`mapInputSource`, `nestedVal`)

The map input source reads a tree of nested maps.  Go interface values are
embedded as `GoValue`; map keys used by the lookups are strings, so maps
are embedded as string-keyed association lists.  `float64` leaves are
embedded by their 64-bit pattern (the source only moves them, never
computes with them). -/

abbrev GoError := String
abbrev GoBool := Bool
abbrev GoInt := Int
abbrev GoString := String
abbrev GoFloat64 := Nat

inductive GoValue where
  | vBool (b : Bool)
  | vInt (n : Int)
  | vInt64 (n : Int)
  | vUint (n : Nat)
  | vUint64 (n : Nat)
  | vFloat64 (bits : Nat)
  | vString (s : String)
  | vList (l : List GoValue)
  | vMap (m : List (String × GoValue))

/-- Go map indexing `m[key]` with a string key. -/
def lookupKey : List (String × GoValue) → String → Option GoValue
  | [], _ => none
  | (k, v) :: rest, key => if k = key then some v else lookupKey rest key

/-- `strings.Split` on a single-character separator (the `.` delimiter). -/
def goSplitAux (sep : Char) : List Char → List Char → List String
  | [], acc => [⟨acc.reverse⟩]
  | c :: cs, acc =>
      if c = sep then ⟨acc.reverse⟩ :: goSplitAux sep cs []
      else goSplitAux sep cs (c :: acc)

def goSplitOn (s : String) (sep : Char) : List String :=
  goSplitAux sep s.data []

/-- The walk over `sections[:len(sections)-1]` in `nestedVal`: index each
intermediate node; a missing key or a non-map child stops the walk. -/
def walkSections : List (String × GoValue) → List String →
    Option (List (String × GoValue))
  | node, [] => some node
  | node, sec :: rest =>
      match lookupKey node sec with
      | none => none
      | some child =>
          match child with
          | .vMap m => walkSections m rest
          | _ => none

/-- `nestedVal` (lines 343-362): if the name has `.` delimiters, traverse
the tree along the sections; the last section indexes the final node. -/
def nestedVal (name : String) (tree : List (String × GoValue)) :
    Option GoValue :=
  let sections := goSplitOn name '.'
  if sections.length > 1 then
    match walkSections tree sections.dropLast with
    | none => none
    | some node => lookupKey node (sections.getLast?.getD "")
  else none

/-- `reflect.TypeOf(value).Name()` on the embedded kinds: named types
report their name; the unnamed map and slice types report `""`. -/
def goTypeName : GoValue → String
  | .vBool _ => "bool"
  | .vInt _ => "int"
  | .vInt64 _ => "int64"
  | .vUint _ => "uint"
  | .vUint64 _ => "uint64"
  | .vFloat64 _ => "float64"
  | .vString _ => "string"
  | .vList _ => ""
  | .vMap _ => ""

/-- `incorrectTypeForFlagError` (lines 364-372). -/
def incorrectTypeForFlagError (name expectedTypeName : String)
    (value : GoValue) : GoError :=
  "Mismatched type for flag \x27" ++ name ++ "\x27. Expected \x27" ++
    expectedTypeName ++ "\x27 but actual is \x27" ++ goTypeName value ++ "\x27"

/-- `mapInputSource`: the file path and the loaded map. -/
structure MapSource where
  file : String
  valueMap : List (String × GoValue)

/-- `mapInputSource.Bool` (lines 23-42). -/
def mapInputSource.Bool (fsm : MapSource) (name : GoString) :
    Except GoError GoBool :=
  match lookupKey fsm.valueMap name with
  | some otherGenericValue =>
      match otherGenericValue with
      | .vBool b => .ok b
      | v => .error (incorrectTypeForFlagError name "bool" v)
  | none =>
      match nestedVal name fsm.valueMap with
      | some nestedGenericValue =>
          match nestedGenericValue with
          | .vBool b => .ok b
          | v => .error (incorrectTypeForFlagError name "bool" v)
      | none => .ok false

/-- `mapInputSource.Int` (lines 144-163). -/
def mapInputSource.Int (fsm : MapSource) (name : GoString) :
    Except GoError GoInt :=
  match lookupKey fsm.valueMap name with
  | some otherGenericValue =>
      match otherGenericValue with
      | .vInt n => .ok n
      | v => .error (incorrectTypeForFlagError name "int" v)
  | none =>
      match nestedVal name fsm.valueMap with
      | some nestedGenericValue =>
          match nestedGenericValue with
          | .vInt n => .ok n
          | v => .error (incorrectTypeForFlagError name "int" v)
      | none => .ok 0

/-- `mapInputSource.String` (lines 246-265). -/
def mapInputSource.String (fsm : MapSource) (name : GoString) :
    Except GoError GoString :=
  match lookupKey fsm.valueMap name with
  | some otherGenericValue =>
      match otherGenericValue with
      | .vString s => .ok s
      | v => .error (incorrectTypeForFlagError name "string" v)
  | none =>
      match nestedVal name fsm.valueMap with
      | some nestedGenericValue =>
          match nestedGenericValue with
          | .vString s => .ok s
          | v => .error (incorrectTypeForFlagError name "string" v)
      | none => .ok ""

/-- The element loop of `mapInputSource.IntSlice` (lines 180-189): decode
element-by-element, aborting at the first element that is not an `int`
with an error naming `name[i]`. -/
def collectInts (name : GoString) : List GoValue → Nat →
    Except GoError (List GoInt)
  | [], _ => .ok []
  | v :: rest, i =>
      match v with
      | .vInt n =>
          match collectInts name rest (i + 1) with
          | .ok tail => .ok (n :: tail)
          | .error e => .error e
      | _ => .error (incorrectTypeForFlagError
          (name ++ "[" ++ toString i ++ "]") "int" v)

/-- The element loop of `mapInputSource.Int64Slice` (lines 231-240). -/
def collectInt64s (name : GoString) : List GoValue → Nat →
    Except GoError (List GoInt)
  | [], _ => .ok []
  | v :: rest, i =>
      match v with
      | .vInt64 n =>
          match collectInt64s name rest (i + 1) with
          | .ok tail => .ok (n :: tail)
          | .error e => .error e
      | _ => .error (incorrectTypeForFlagError
          (name ++ "[" ++ toString i ++ "]") "int64" v)

/-- The element loop of `mapInputSource.Float64Slice` (lines 107-116). -/
def collectFloat64s (name : GoString) : List GoValue → Nat →
    Except GoError (List GoFloat64)
  | [], _ => .ok []
  | v :: rest, i =>
      match v with
      | .vFloat64 x =>
          match collectFloat64s name rest (i + 1) with
          | .ok tail => .ok (x :: tail)
          | .error e => .error e
      | _ => .error (incorrectTypeForFlagError
          (name ++ "[" ++ toString i ++ "]") "float64" v)

/-- The element loop of `mapInputSource.StringSlice` (lines 282-291). -/
def collectStrings (name : GoString) : List GoValue → Nat →
    Except GoError (List GoString)
  | [], _ => .ok []
  | v :: rest, i =>
      match v with
      | .vString s =>
          match collectStrings name rest (i + 1) with
          | .ok tail => .ok (s :: tail)
          | .error e => .error e
      | _ => .error (incorrectTypeForFlagError
          (name ++ "[" ++ toString i ++ "]") "string" v)

/-- `mapInputSource.IntSlice` (lines 166-192): direct lookup, else nested;
absence gives the nil slice and no error; a non-sequence value or an
ill-typed element aborts with an error. -/
def mapInputSource.IntSlice (fsm : MapSource) (name : GoString) :
    Except GoError (Option (List GoInt)) :=
  match (match lookupKey fsm.valueMap name with
        | some v => some v
        | none => nestedVal name fsm.valueMap) with
  | none => .ok none
  | some otherGenericValue =>
      match otherGenericValue with
      | .vList otherValue =>
          match collectInts name otherValue 0 with
          | .ok l => .ok (some l)
          | .error e => .error e
      | v => .error (incorrectTypeForFlagError name "[]interface\x7b\x7d" v)

/-- `mapInputSource.Int64Slice` (lines 217-243). -/
def mapInputSource.Int64Slice (fsm : MapSource) (name : GoString) :
    Except GoError (Option (List GoInt)) :=
  match (match lookupKey fsm.valueMap name with
        | some v => some v
        | none => nestedVal name fsm.valueMap) with
  | none => .ok none
  | some otherGenericValue =>
      match otherGenericValue with
      | .vList otherValue =>
          match collectInt64s name otherValue 0 with
          | .ok l => .ok (some l)
          | .error e => .error e
      | v => .error (incorrectTypeForFlagError name "[]interface\x7b\x7d" v)

/-- `mapInputSource.Float64Slice` (lines 93-119). -/
def mapInputSource.Float64Slice (fsm : MapSource) (name : GoString) :
    Except GoError (Option (List GoFloat64)) :=
  match (match lookupKey fsm.valueMap name with
        | some v => some v
        | none => nestedVal name fsm.valueMap) with
  | none => .ok none
  | some otherGenericValue =>
      match otherGenericValue with
      | .vList otherValue =>
          match collectFloat64s name otherValue 0 with
          | .ok l => .ok (some l)
          | .error e => .error e
      | v => .error (incorrectTypeForFlagError name "[]interface\x7b\x7d" v)

/-- `mapInputSource.StringSlice` (lines 268-294). -/
def mapInputSource.StringSlice (fsm : MapSource) (name : GoString) :
    Except GoError (Option (List GoString)) :=
  match (match lookupKey fsm.valueMap name with
        | some v => some v
        | none => nestedVal name fsm.valueMap) with
  | none => .ok none
  | some otherGenericValue =>
      match otherGenericValue with
      | .vList otherValue =>
          match collectStrings name otherValue 0 with
          | .ok l => .ok (some l)
          | .error e => .error e
      | v => .error (incorrectTypeForFlagError name "[]interface\x7b\x7d" v)

/-- The tree from the spec example: a map `a` containing a map `b`
containing the int entry `c = 5`. -/
def tree0 : MapSource :=
  ⟨"cfg.yaml", [("a", .vMap [("b", .vMap [("c", .vInt 5)])])]⟩

/-- C4: nested dotted-path lookup.  On the example tree, `Int "a.b.c"`
returns `5` with no error, `Int "a.b.x"` returns the zero value with no
error, and `String "a.b.c"` is a type-mismatch error naming the key, the
expected kind and the actual kind.  In general a key that is absent both
directly and along the dotted path (including any missing or non-map
intermediate node, which makes `nestedVal` fail silently) returns the zero
value with no error, while a key that resolves to an existing value of the
wrong underlying type returns the mismatch error and a value of the right
type is returned as-is. -/
theorem mapSource_nested_lookup :
    (mapInputSource.Int tree0 "a.b.c" = .ok 5) ∧
    (mapInputSource.Int tree0 "a.b.x" = .ok 0) ∧
    (mapInputSource.String tree0 "a.b.c" =
      .error (incorrectTypeForFlagError "a.b.c" "string" (.vInt 5))) ∧
    (∀ (fsm : MapSource) (name : GoString),
      lookupKey fsm.valueMap name = none →
      nestedVal name fsm.valueMap = none →
      mapInputSource.Int fsm name = .ok 0) ∧
    (∀ (fsm : MapSource) (name : GoString) (v : GoValue),
      lookupKey fsm.valueMap name = none →
      nestedVal name fsm.valueMap = some v →
      (∀ n, v ≠ GoValue.vInt n) →
      mapInputSource.Int fsm name =
        .error (incorrectTypeForFlagError name "int" v)) ∧
    (∀ (fsm : MapSource) (name : GoString) (n : GoInt),
      lookupKey fsm.valueMap name = none →
      nestedVal name fsm.valueMap = some (.vInt n) →
      mapInputSource.Int fsm name = .ok n) := by
  refine ⟨rfl, rfl, rfl, ?_, ?_, ?_⟩
  · intro fsm name h1 h2
    unfold mapInputSource.Int
    rw [h1, h2]
  · intro fsm name v h1 h2 hv
    unfold mapInputSource.Int
    rw [h1, h2]
    cases v with
    | vInt n => exact absurd rfl (hv n)
    | vBool b => rfl
    | vInt64 n => rfl
    | vUint n => rfl
    | vUint64 n => rfl
    | vFloat64 x => rfl
    | vString s => rfl
    | vList l => rfl
    | vMap m => rfl
  · intro fsm name n h1 h2
    unfold mapInputSource.Int
    rw [h1, h2]

theorem mapSource_nested_lookup_witness :
    mapInputSource.Int tree0 "q" = .ok 0 :=
  mapSource_nested_lookup.2.2.2.1 tree0 "q" rfl rfl

theorem collectInts_first_bad (name : GoString) (pre : List GoValue) :
    ∀ (i : Nat) (v : GoValue) (post : List GoValue),
      (∀ w ∈ pre, ∃ n, w = GoValue.vInt n) → (∀ n, v ≠ GoValue.vInt n) →
      collectInts name (pre ++ v :: post) i =
        .error (incorrectTypeForFlagError
          (name ++ "[" ++ toString (i + pre.length) ++ "]") "int" v) := by
  induction pre with
  | nil =>
      intro i v post _ hv
      cases v with
      | vInt n => exact absurd rfl (hv n)
      | vBool b => rfl
      | vInt64 n => rfl
      | vUint n => rfl
      | vUint64 n => rfl
      | vFloat64 x => rfl
      | vString s => rfl
      | vList l => rfl
      | vMap m => rfl
  | cons w rest ih =>
      intro i v post hpre hv
      obtain ⟨n, hw⟩ := hpre w (List.mem_cons_self _ _)
      subst hw
      have hrec := ih (i + 1) v post
        (fun u hu => hpre u (List.mem_cons_of_mem _ hu)) hv
      have hidx : i + 1 + rest.length = i + (rest.length + 1) := by omega
      simp only [List.cons_append, collectInts, List.append_eq, hrec, hidx,
        List.length_cons]

theorem collectInts_all_ok (name : GoString) (ns : List GoInt) :
    ∀ i, collectInts name (ns.map GoValue.vInt) i = .ok ns := by
  induction ns with
  | nil => intro i; rfl
  | cons n rest ih =>
      intro i
      simp only [List.map_cons, collectInts, ih]

theorem collectInt64s_first_bad (name : GoString) (pre : List GoValue) :
    ∀ (i : Nat) (v : GoValue) (post : List GoValue),
      (∀ w ∈ pre, ∃ n, w = GoValue.vInt64 n) → (∀ n, v ≠ GoValue.vInt64 n) →
      collectInt64s name (pre ++ v :: post) i =
        .error (incorrectTypeForFlagError
          (name ++ "[" ++ toString (i + pre.length) ++ "]") "int64" v) := by
  induction pre with
  | nil =>
      intro i v post _ hv
      cases v with
      | vInt64 n => exact absurd rfl (hv n)
      | vBool b => rfl
      | vInt n => rfl
      | vUint n => rfl
      | vUint64 n => rfl
      | vFloat64 x => rfl
      | vString s => rfl
      | vList l => rfl
      | vMap m => rfl
  | cons w rest ih =>
      intro i v post hpre hv
      obtain ⟨n, hw⟩ := hpre w (List.mem_cons_self _ _)
      subst hw
      have hrec := ih (i + 1) v post
        (fun u hu => hpre u (List.mem_cons_of_mem _ hu)) hv
      have hidx : i + 1 + rest.length = i + (rest.length + 1) := by omega
      simp only [List.cons_append, collectInt64s, List.append_eq, hrec, hidx,
        List.length_cons]

theorem collectFloat64s_first_bad (name : GoString) (pre : List GoValue) :
    ∀ (i : Nat) (v : GoValue) (post : List GoValue),
      (∀ w ∈ pre, ∃ x, w = GoValue.vFloat64 x) →
      (∀ x, v ≠ GoValue.vFloat64 x) →
      collectFloat64s name (pre ++ v :: post) i =
        .error (incorrectTypeForFlagError
          (name ++ "[" ++ toString (i + pre.length) ++ "]") "float64" v) := by
  induction pre with
  | nil =>
      intro i v post _ hv
      cases v with
      | vFloat64 x => exact absurd rfl (hv x)
      | vBool b => rfl
      | vInt n => rfl
      | vInt64 n => rfl
      | vUint n => rfl
      | vUint64 n => rfl
      | vString s => rfl
      | vList l => rfl
      | vMap m => rfl
  | cons w rest ih =>
      intro i v post hpre hv
      obtain ⟨x, hw⟩ := hpre w (List.mem_cons_self _ _)
      subst hw
      have hrec := ih (i + 1) v post
        (fun u hu => hpre u (List.mem_cons_of_mem _ hu)) hv
      have hidx : i + 1 + rest.length = i + (rest.length + 1) := by omega
      simp only [List.cons_append, collectFloat64s, List.append_eq, hrec, hidx,
        List.length_cons]

theorem collectStrings_first_bad (name : GoString) (pre : List GoValue) :
    ∀ (i : Nat) (v : GoValue) (post : List GoValue),
      (∀ w ∈ pre, ∃ s, w = GoValue.vString s) →
      (∀ s, v ≠ GoValue.vString s) →
      collectStrings name (pre ++ v :: post) i =
        .error (incorrectTypeForFlagError
          (name ++ "[" ++ toString (i + pre.length) ++ "]") "string" v) := by
  induction pre with
  | nil =>
      intro i v post _ hv
      cases v with
      | vString s => exact absurd rfl (hv s)
      | vBool b => rfl
      | vInt n => rfl
      | vInt64 n => rfl
      | vUint n => rfl
      | vUint64 n => rfl
      | vFloat64 x => rfl
      | vList l => rfl
      | vMap m => rfl
  | cons w rest ih =>
      intro i v post hpre hv
      obtain ⟨s, hw⟩ := hpre w (List.mem_cons_self _ _)
      subst hw
      have hrec := ih (i + 1) v post
        (fun u hu => hpre u (List.mem_cons_of_mem _ hu)) hv
      have hidx : i + 1 + rest.length = i + (rest.length + 1) := by omega
      simp only [List.cons_append, collectStrings, List.append_eq, hrec, hidx,
        List.length_cons]

/-- C7: every modelled slice-kind getter decodes the stored sequence
element-by-element; the first ill-typed element aborts decoding of the
whole slice with an error naming the key together with the index of the
offending element, and no partial slice is returned (the result is the
error alone).  A fully well-typed sequence decodes to the whole slice. -/
theorem slice_getters_abort_on_first_bad (fsm : MapSource) (name : GoString) :
    (∀ (pre post : List GoValue) (v : GoValue),
      lookupKey fsm.valueMap name = some (.vList (pre ++ v :: post)) →
      (∀ w ∈ pre, ∃ n, w = GoValue.vInt n) → (∀ n, v ≠ GoValue.vInt n) →
      mapInputSource.IntSlice fsm name =
        .error (incorrectTypeForFlagError
          (name ++ "[" ++ toString pre.length ++ "]") "int" v)) ∧
    (∀ ns : List GoInt,
      lookupKey fsm.valueMap name = some (.vList (ns.map GoValue.vInt)) →
      mapInputSource.IntSlice fsm name = .ok (some ns)) ∧
    (∀ (pre post : List GoValue) (v : GoValue),
      lookupKey fsm.valueMap name = some (.vList (pre ++ v :: post)) →
      (∀ w ∈ pre, ∃ n, w = GoValue.vInt64 n) → (∀ n, v ≠ GoValue.vInt64 n) →
      mapInputSource.Int64Slice fsm name =
        .error (incorrectTypeForFlagError
          (name ++ "[" ++ toString pre.length ++ "]") "int64" v)) ∧
    (∀ (pre post : List GoValue) (v : GoValue),
      lookupKey fsm.valueMap name = some (.vList (pre ++ v :: post)) →
      (∀ w ∈ pre, ∃ x, w = GoValue.vFloat64 x) →
      (∀ x, v ≠ GoValue.vFloat64 x) →
      mapInputSource.Float64Slice fsm name =
        .error (incorrectTypeForFlagError
          (name ++ "[" ++ toString pre.length ++ "]") "float64" v)) ∧
    (∀ (pre post : List GoValue) (v : GoValue),
      lookupKey fsm.valueMap name = some (.vList (pre ++ v :: post)) →
      (∀ w ∈ pre, ∃ s, w = GoValue.vString s) →
      (∀ s, v ≠ GoValue.vString s) →
      mapInputSource.StringSlice fsm name =
        .error (incorrectTypeForFlagError
          (name ++ "[" ++ toString pre.length ++ "]") "string" v)) := by
  refine ⟨?_, ?_, ?_, ?_, ?_⟩
  · intro pre post v hfound hpre hv
    have hcol := collectInts_first_bad name pre 0 v post hpre hv
    rw [Nat.zero_add] at hcol
    simp only [mapInputSource.IntSlice, hfound, hcol]
  · intro ns hfound
    simp only [mapInputSource.IntSlice, hfound, collectInts_all_ok]
  · intro pre post v hfound hpre hv
    have hcol := collectInt64s_first_bad name pre 0 v post hpre hv
    rw [Nat.zero_add] at hcol
    simp only [mapInputSource.Int64Slice, hfound, hcol]
  · intro pre post v hfound hpre hv
    have hcol := collectFloat64s_first_bad name pre 0 v post hpre hv
    rw [Nat.zero_add] at hcol
    simp only [mapInputSource.Float64Slice, hfound, hcol]
  · intro pre post v hfound hpre hv
    have hcol := collectStrings_first_bad name pre 0 v post hpre hv
    rw [Nat.zero_add] at hcol
    simp only [mapInputSource.StringSlice, hfound, hcol]

/-- Source with a sequence whose second element is ill-typed. -/
def badSliceSource : MapSource :=
  ⟨"cfg.yaml", [("xs", .vList [.vInt 1, .vString "two", .vInt 3])]⟩

theorem slice_getters_abort_witness :
    (lookupKey badSliceSource.valueMap "xs" =
      some (.vList ([GoValue.vInt 1] ++ GoValue.vString "two" ::
        [GoValue.vInt 3]))) ∧
    mapInputSource.IntSlice badSliceSource "xs" =
      .error (incorrectTypeForFlagError
        ("xs" ++ "[" ++ toString ([GoValue.vInt 1] : List GoValue).length ++
          "]") "int" (GoValue.vString "two")) :=
  ⟨rfl,
    (slice_getters_abort_on_first_bad badSliceSource "xs").1
      [GoValue.vInt 1] [GoValue.vInt 3] (GoValue.vString "two") rfl
      (by intro w hw
          simp only [List.mem_singleton] at hw
          exact ⟨1, hw⟩)
      (fun n h => GoValue.noConfusion h)⟩

/-! ## BoolFlag precedence (`flag_bool.go`)

`BoolFlag.Apply` (under `src/`) reads the environment and file through
`flagFromEnvOrFile`, which is defined in a file not under `src/` and is
modelled from the spec.  The stages that apply an Input Source and parse a
command-line token through `boolValue.Set` are glued together outside
`src/` as well; `resolveBool` composes them in the priority order the spec
fixes (CLI > env > file > Input Source > default). -/

/-- `strconv.ParseBool`: accepts exactly 1, t, T, TRUE, true, True and
0, f, F, FALSE, false, False. -/
def parseBool (s : String) : Option Bool :=
  if s = "1" || s = "t" || s = "T" || s = "TRUE" || s = "true" || s = "True"
    then some true
  else if s = "0" || s = "f" || s = "F" || s = "FALSE" || s = "false" ||
      s = "False" then some false
  else none

/-- Go `strings.TrimSpace` (character-level). -/
def goTrimSpace (s : String) : String :=
  ⟨((s.data.dropWhile Char.isWhitespace).reverse.dropWhile
      Char.isWhitespace).reverse⟩

/-- Modelled from the spec: `flagFromEnvOrFile` is defined in a source file
not under `src/`.  Spec: the flag's environment variable names are tried in
order and the first one with a non-empty value wins (an empty value is
skipped in favor of the next); otherwise the entire contents of the file at
the flag's file path, after trimming, are used.  `env` and `file` return
`none` for an unset variable or unreadable path. -/
def flagFromEnvOrFile (env : String → Option String)
    (file : String → Option String) (envVars : List String)
    (filePath : Option String) : Option String :=
  match envVars.findSome? (fun key =>
      match env key with
      | some v => if v ≠ "" then some v else none
      | none => none) with
  | some v => some v
  | none =>
      match filePath with
      | some path =>
          match file path with
          | some contents => some (goTrimSpace contents)
          | none => none
      | none => none

/-- `BoolFlag` (lines 11-24): the fields the resolution pipeline reads and
writes.  The `Destination` cell shares identity with the resolved value and
`Count` only counts occurrences; neither changes resolution, so they are
not carried. -/
structure BoolFlag where
  name : String
  aliases : List String
  envVars : List String
  filePath : Option String
  required : Bool
  hidden : Bool
  value : Bool
  hasBeenSet : Bool
deriving Repr, DecidableEq

/-- `BoolFlag.Apply` (lines 112-138): a non-empty env-or-file value is
parsed as a bool (a parse failure is an error), stored as the flag's value,
and marks `HasBeenSet`; an absent or empty value leaves the flag as is. -/
def BoolFlag.Apply (f : BoolFlag) (env file : String → Option String) :
    Except GoError BoolFlag :=
  match flagFromEnvOrFile env file f.envVars f.filePath with
  | some val =>
      if val ≠ "" then
        match parseBool val with
        | some valBool => .ok { f with value := valBool, hasBeenSet := true }
        | none => .error ("could not parse " ++ val ++
            " as bool value for flag " ++ f.name)
      else .ok f
  | none => .ok f

/-- `BoolFlag.IsSet` (lines 70-72); the source comments it as returning
"whether or not the flag has been set through env or file". -/
def BoolFlag.IsSet (f : BoolFlag) : Bool :=
  f.hasBeenSet

/-- Whether the Input Source holds an entry for the name, directly or along
the dotted path (`mapInputSource.Bool` alone cannot distinguish an absent
key from a stored `false`). -/
def sourceHas (fsm : MapSource) (name : GoString) : Bool :=
  (lookupKey fsm.valueMap name).isSome || (nestedVal name fsm.valueMap).isSome

/-- Modelled from the spec: the glue applying an Input Source to a flag is
defined outside `src/`.  Spec: once a source at a given priority supplies a
value, lower-priority sources are not consulted — so the caller
(`resolveBool`) invokes this stage only when no command-line token is
present, and the `HasBeenSet` guard here skips the source when the env/file
stage already set the flag.  A present value (read through the source
getter, whose type-mismatch errors propagate) becomes the flag’s value and
marks `HasBeenSet`; an absent key leaves the flag as is. -/
def applyInputSourceBool (f : BoolFlag) (src? : Option MapSource) :
    Except GoError BoolFlag :=
  match src? with
  | none => .ok f
  | some fsm =>
      if f.hasBeenSet then .ok f
      else if sourceHas fsm f.name then
        match mapInputSource.Bool fsm f.name with
        | .ok b => .ok { f with value := b, hasBeenSet := true }
        | .error e => .error e
      else .ok f

/-- Modelled from the spec: the end-to-end resolution of one `BoolFlag`.
`Apply` (env/file, under `src/`) runs first and fixes the default
registered in the flag set.  A command-line token is the highest-priority
source: when one is present it is parsed by `boolValue.Set` (lines 45-56
under `src/`: `strconv.ParseBool`, a failure is a parse error, a success
overwrites the value but not the `HasBeenSet` marker) and, per the spec’s
rule that lower-priority sources are not consulted once a higher one
supplies a value, the Input Source is not consulted at all.  Only when no
token is present is the Input Source applied.  Returns the effective value
and the marker. -/
def resolveBool (f : BoolFlag) (env file : String → Option String)
    (src? : Option MapSource) (cli : Option String) :
    Except GoError (Bool × Bool) :=
  match f.Apply env file with
  | .error e => .error e
  | .ok f1 =>
      match cli with
      | some s =>
          match parseBool s with
          | none => .error "parse error"
          | some v => .ok (v, f1.hasBeenSet)
      | none =>
          match applyInputSourceBool f1 src? with
          | .error e => .error e
          | .ok f2 => .ok (f2.value, f2.hasBeenSet)

def emptyEnvFile : String → Option String := fun _ => none

def flagC3 : BoolFlag :=
  ⟨"verbose", [], [], none, false, false, false, false⟩

/-- C3 counterexample: a flag whose only value above the compiled-in
default comes from the command line resolves to that value, but its
`HasBeenSet` marker stays `false` — `boolValue.Set` writes the destination
without touching `HasBeenSet`, which only `Apply` (env/file) and the
Input-Source stage raise.  The claim's "`HasBeenSet` is true iff some
source above the default supplied a value" therefore fails here, where it
demands `.ok (true, true)`. -/
theorem cli_only_leaves_hasBeenSet_false :
    resolveBool flagC3 emptyEnvFile emptyEnvFile none (some "true") =
      .ok (true, false) ∧
    resolveBool flagC3 emptyEnvFile emptyEnvFile none (some "true") ≠
      .ok (true, true) := by
  constructor
  · rfl
  · intro h
    rw [show resolveBool flagC3 emptyEnvFile emptyEnvFile none (some "true") =
      .ok (true, false) from rfl] at h
    injection h with h2
    simp at h2

/-- The parsed command-line token summarized as an optional bool: `cb` is
`none` iff no token was given, and the parsed value otherwise (a malformed
token is outside this relation). -/
def cliParsed (cli : Option String) (cb : Option Bool) : Prop :=
  match cli with
  | none => cb = none
  | some s => ∃ b, parseBool s = some b ∧ cb = some b

/-- The env-or-file stage summarized as an optional bool: `eb` is `none`
iff `flagFromEnvOrFile` finds nothing or the empty string, and the parsed
value otherwise. -/
def envFileParsed (f : BoolFlag) (env file : String → Option String)
    (eb : Option Bool) : Prop :=
  match flagFromEnvOrFile env file f.envVars f.filePath with
  | none => eb = none
  | some v =>
      if v = "" then eb = none
      else ∃ b, parseBool v = some b ∧ eb = some b

/-- The Input-Source stage summarized as an optional bool: `sb` is `none`
iff no source is configured or the key is absent, and the stored bool
otherwise. -/
def sourceParsed (src? : Option MapSource) (name : GoString)
    (sb : Option Bool) : Prop :=
  match src? with
  | none => sb = none
  | some fsm =>
      if sourceHas fsm name then
        ∃ b, mapInputSource.Bool fsm name = .ok b ∧ sb = some b
      else sb = none

/-- The flag after the env/file stage alone. -/
def ebFlag (f : BoolFlag) : Option Bool → BoolFlag
  | some b => { f with value := b, hasBeenSet := true }
  | none => f

/-- The flag after the env/file and Input-Source stages. -/
def resolvedFlag (f : BoolFlag) (eb sb : Option Bool) : BoolFlag :=
  match eb with
  | some b => { f with value := b, hasBeenSet := true }
  | none =>
      match sb with
      | some b => { f with value := b, hasBeenSet := true }
      | none => f

theorem apply_envfile (f : BoolFlag) (env file : String → Option String)
    (eb : Option Bool) (hef : envFileParsed f env file eb) :
    f.Apply env file = .ok (ebFlag f eb) := by
  unfold envFileParsed at hef
  unfold BoolFlag.Apply
  cases hff : flagFromEnvOrFile env file f.envVars f.filePath with
  | none =>
      rw [hff] at hef
      have he : eb = none := hef
      subst he
      rfl
  | some v =>
      rw [hff] at hef
      have hef2 : if v = "" then eb = none else
          ∃ b, parseBool v = some b ∧ eb = some b := hef
      by_cases hv : v = ""
      · rw [if_pos hv] at hef2
        subst hef2
        subst hv
        rfl
      · rw [if_neg hv] at hef2
        obtain ⟨b, hpb, heb⟩ := hef2
        subst heb
        simp [hpb, hv, ebFlag]

theorem apply_source (f : BoolFlag) (src? : Option MapSource)
    (eb sb : Option Bool) (hunset : f.hasBeenSet = false)
    (hsrc : sourceParsed src? f.name sb) :
    applyInputSourceBool (ebFlag f eb) src? = .ok (resolvedFlag f eb sb) := by
  unfold sourceParsed at hsrc
  cases eb with
  | some be =>
      cases src? with
      | none => rfl
      | some fsm => rfl
  | none =>
      cases src? with
      | none =>
          have h : sb = none := hsrc
          subst h
          rfl
      | some fsm =>
          have hsrc2 : if sourceHas fsm f.name = true then
              ∃ b, mapInputSource.Bool fsm f.name = .ok b ∧ sb = some b
            else sb = none := hsrc
          by_cases hhas : sourceHas fsm f.name = true
          · rw [if_pos hhas] at hsrc2
            obtain ⟨b, hok, hsb⟩ := hsrc2
            subst hsb
            show (if f.hasBeenSet = true then Except.ok f
              else if sourceHas fsm f.name = true then
                match mapInputSource.Bool fsm f.name with
                | .ok b2 => Except.ok { f with value := b2, hasBeenSet := true }
                | .error e => Except.error e
              else Except.ok f) =
              Except.ok { f with value := b, hasBeenSet := true }
            rw [hunset, if_neg Bool.false_ne_true, if_pos hhas, hok]
          · rw [if_neg hhas] at hsrc2
            subst hsrc2
            show (if f.hasBeenSet = true then Except.ok f
              else if sourceHas fsm f.name = true then
                match mapInputSource.Bool fsm f.name with
                | .ok b2 => Except.ok { f with value := b2, hasBeenSet := true }
                | .error e => Except.error e
              else Except.ok f) = Except.ok f
            rw [hunset, if_neg Bool.false_ne_true, if_neg hhas]

/-- C3 amended: the resolved effective value equals the value from the
highest-priority source present, in the order command-line token >
environment variable (first listed name with a non-empty value) > file at
the flag’s file path > Input Source > compiled-in default, where a source
at a given priority stops consultation of the lower ones; but the
`HasBeenSet` marker is true iff the env/file stage supplied a value, or no
command-line token was given and the Input Source supplied one — a
command-line token alone never raises the marker (the source’s `IsSet`
comment restricts it to "env or file"). -/
theorem resolveBool_precedence (f : BoolFlag) (env file : String → Option String)
    (src? : Option MapSource) (cli : Option String) (cb eb sb : Option Bool)
    (hunset : f.hasBeenSet = false)
    (hcli : cliParsed cli cb)
    (hef : envFileParsed f env file eb)
    (hsrc : sourceParsed src? f.name sb) :
    resolveBool f env file src? cli =
      .ok (cb.getD (eb.getD (sb.getD f.value)),
        eb.isSome || (cb.isNone && sb.isSome)) := by
  unfold cliParsed at hcli
  simp only [resolveBool, apply_envfile f env file eb hef]
  cases cli with
  | none =>
      subst hcli
      simp only [apply_source f src? eb sb hunset hsrc]
      cases eb with
      | some be => simp [resolvedFlag]
      | none =>
          cases sb with
          | some bs => simp [resolvedFlag]
          | none => simp [resolvedFlag, hunset]
  | some s =>
      obtain ⟨b, hpb, hcb⟩ := hcli
      subst hcb
      simp only [hpb]
      cases eb with
      | some be => simp [ebFlag]
      | none => simp [ebFlag, hunset]

def flagW : BoolFlag :=
  ⟨"verbose", [], ["APP_VERBOSE"], none, false, false, false, false⟩

def envW : String → Option String :=
  fun k => if k = "APP_VERBOSE" then some "false" else none

theorem resolveBool_precedence_witness :
    flagW.hasBeenSet = false ∧
    cliParsed (some "true") (some true) ∧
    envFileParsed flagW envW emptyEnvFile (some false) ∧
    sourceParsed none flagW.name none ∧
    resolveBool flagW envW emptyEnvFile none (some "true") = .ok (true, true) :=
  ⟨rfl, ⟨true, rfl, rfl⟩, ⟨false, rfl, rfl⟩, rfl,
    resolveBool_precedence flagW envW emptyEnvFile none (some "true")
      (some true) (some false) none rfl ⟨true, rfl, rfl⟩ ⟨false, rfl, rfl⟩ rfl⟩

/-! ## `Context.Bool` / `lookupBool` (`flag_bool.go` lines 140-159)

A parsed `flag.FlagSet` is observed through `set.Lookup(name)` followed by
`f.Value.String()`: it is embedded as the association of registered flag
names to the string rendering of their current values.
`Context.lookupFlagSet` is defined in a file not under `src/`. -/

abbrev FlagSetView := List (String × String)

/-- `set.Lookup(name)` followed by reading `f.Value.String()`. -/
def lookupFlagVal : FlagSetView → String → Option String
  | [], _ => none
  | (k, v) :: rest, name => if k = name then some v else lookupFlagVal rest name

/-- `lookupBool` (lines 149-159): `strconv.ParseBool` of the looked-up
value's string rendering; a missing flag or a parse failure yields
`false`. -/
def lookupBool (name : String) (set : FlagSetView) : GoBool :=
  match lookupFlagVal set name with
  | some s =>
      match parseBool s with
      | some parsed => parsed
      | none => false
  | none => false

/-- The chain of flag-set scopes a `Context` can see, innermost first.
`lookupFlagSet` is not under `src/` — Modelled from the spec: the
parent-chained Context is searched innermost-first for a scope that
declares the name. -/
structure Context where
  sets : List FlagSetView

def Context.lookupFlagSet (c : Context) (name : String) : Option FlagSetView :=
  c.sets.find? (fun fs => (lookupFlagVal fs name).isSome)

/-- `Context.Bool` (lines 142-147): look up the owning flag set along the
chain, then read it through `lookupBool`; `false` if no scope has it. -/
def Context.Bool (c : Context) (name : String) : GoBool :=
  match c.lookupFlagSet name with
  | some fs => lookupBool name fs
  | none => false

/-- C10: `Context.Bool` is total and never reports an error: it equals the
parse of the innermost registered value when that parses as a bool, and
`false` both when the name is registered in no scope of the chain and when
the stored string does not parse as a bool. -/
theorem context_bool_total (c : Context) (name : String) :
    c.Bool name =
      ((c.sets.findSome? (fun fs => lookupFlagVal fs name)).bind
        parseBool).getD false := by
  obtain ⟨sets⟩ := c
  induction sets with
  | nil => rfl
  | cons fs rest ih =>
      show Context.Bool ⟨fs :: rest⟩ name = _
      unfold Context.Bool Context.lookupFlagSet
      cases hlv : lookupFlagVal fs name with
      | some s =>
          have hfind : List.find?
              (fun fs => (lookupFlagVal fs name).isSome) (fs :: rest) =
              some fs := by
            rw [List.find?_cons_of_pos]
            rw [hlv]
            rfl
          have hsome : List.findSome?
              (fun fs => lookupFlagVal fs name) (fs :: rest) = some s := by
            rw [List.findSome?_cons, hlv]
          rw [hfind, hsome]
          show lookupBool name fs = ((some s).bind parseBool).getD false
          unfold lookupBool
          rw [hlv]
          show (match parseBool s with
            | some parsed => parsed
            | none => false) = (parseBool s).getD false
          cases parseBool s with
          | some b => rfl
          | none => rfl
      | none =>
          have hfind : List.find?
              (fun fs => (lookupFlagVal fs name).isSome) (fs :: rest) =
              List.find? (fun fs => (lookupFlagVal fs name).isSome) rest := by
            refine List.find?_cons_of_neg _ ?_
            rw [hlv]
            simp
          have hsome : List.findSome?
              (fun fs => lookupFlagVal fs name) (fs :: rest) =
              List.findSome? (fun fs => lookupFlagVal fs name) rest := by
            rw [List.findSome?_cons, hlv]
          rw [hfind, hsome]
          exact ih
